import Mathlib

/-!
# Shallow embedding of `music_note_utils.js`

This file embeds the data model and the operations of the JavaScript
library `@rharel/music-note-utils` (source: `src/music_note_utils.js`) and
proves the specification claims about it.

Modelling conventions:

* JavaScript strings are modelled as `List Char`.
* JavaScript numbers are modelled as ideal integers (`Int`): every claim
  quantifies over integer inputs only, so `Math.round` in `Note.from_index`
  is the identity and floating-point rounding plays no role.
* The JavaScript `%` operator is truncated remainder, `Int.tmod`;
  `Math.floor(x / 12)` on an integer `x` is flooring division, `Int.fdiv`.
* A JavaScript array access that can yield `undefined`
  (`_PitchClass.list[index]` for an out-of-range index) is modelled with
  `Option`; `null` returned by `Note.from_string` is modelled as `none`.
-/

/-- A pitch class object, as built by the constructor `_PitchClass(index,
index_in_octave, letter)` in the source. -/
structure _PitchClass where
  index : Int
  index_in_octave : Int
  letter : Char
deriving DecidableEq

/-- The source's `_PitchClass.list`: the seven pitch classes A-G with their
indices and indices-in-octave (relative to C). -/
def _PitchClass.list : List _PitchClass :=
  [⟨0, 9, 'A'⟩, ⟨1, 11, 'B'⟩, ⟨2, 0, 'C'⟩, ⟨3, 2, 'D'⟩,
   ⟨4, 4, 'E'⟩, ⟨5, 5, 'F'⟩, ⟨6, 7, 'G'⟩]

/-- An accidental object, as built by the constructor `_Accidental(shift,
symbol)` in the source.  The symbol is a string, modelled as `List Char`. -/
structure _Accidental where
  shift : Int
  symbol : List Char
deriving DecidableEq

/-- `Accidental.None = new _Accidental(0, "")`. -/
def Accidental.None : _Accidental := ⟨0, []⟩

/-- `Accidental.Sharp = new _Accidental(1, "#")`. -/
def Accidental.Sharp : _Accidental := ⟨1, ['#']⟩

/-- `Accidental.Flat = new _Accidental(-1, "b")`. -/
def Accidental.Flat : _Accidental := ⟨-1, ['b']⟩

/-- `PitchClass.with_index(index)` returns `_PitchClass.list[index]`.
A JavaScript array access out of range yields `undefined`, modelled as
`none`. -/
def PitchClass.with_index (index : Int) : Option _PitchClass :=
  if 0 ≤ index then _PitchClass.list.get? index.toNat else none

/-- The getter `PitchClass.A` (`= PitchClass.with_index(0)`); likewise below
for B-G. -/
def PitchClass.A : Option _PitchClass := PitchClass.with_index 0

/-- The getter `PitchClass.B`. -/
def PitchClass.B : Option _PitchClass := PitchClass.with_index 1

/-- The getter `PitchClass.C`. -/
def PitchClass.C : Option _PitchClass := PitchClass.with_index 2

/-- The getter `PitchClass.D`. -/
def PitchClass.D : Option _PitchClass := PitchClass.with_index 3

/-- The getter `PitchClass.E`. -/
def PitchClass.E : Option _PitchClass := PitchClass.with_index 4

/-- The getter `PitchClass.F`. -/
def PitchClass.F : Option _PitchClass := PitchClass.with_index 5

/-- The getter `PitchClass.G`. -/
def PitchClass.G : Option _PitchClass := PitchClass.with_index 6

/-- `NoteIndex.normalize(index)`: `const remainder = index % 12;
return remainder < 0 ? 12 + remainder : remainder;`.  JavaScript `%` is
truncated remainder, `Int.tmod`. -/
def NoteIndex.normalize (index : Int) : Int :=
  let remainder := Int.tmod index 12
  if remainder < 0 then 12 + remainder else remainder

/-- The lookup table `PITCH_CLASS_INDEX_BY_NORMALIZED_INDEX` from the
source's `NoteIndex.to_pitch_class`: pairs a note's normalized index with
its pitch class index; accidentals are paired with the note below them. -/
def PITCH_CLASS_INDEX_BY_NORMALIZED_INDEX : List Int :=
  [0, 0, 1, 2, 2, 3, 3, 4, 5, 5, 6, 6]

/-- `NoteIndex.to_pitch_class(index)`: looks up the table at
`normalize(index)` and passes the result to `PitchClass.with_index`.  An
out-of-range table access (impossible, since `normalize` lands in `[0,11]`)
would yield `undefined`, modelled by `none` propagation. -/
def NoteIndex.to_pitch_class (index : Int) : Option _PitchClass :=
  match PITCH_CLASS_INDEX_BY_NORMALIZED_INDEX.get?
      (NoteIndex.normalize index).toNat with
  | some k => PitchClass.with_index k
  | none => none

/-- `NoteIndex.to_octave(index)`:
`4 + Math.floor((index + 9) / 12)`, i.e. flooring division. -/
def NoteIndex.to_octave (index : Int) : Int :=
  4 + Int.fdiv (index + 9) 12

/-- The list `ACCIDENTAL_NORMALIZED_INDICES` from the source's
`NoteIndex.is_accidental`. -/
def ACCIDENTAL_NORMALIZED_INDICES : List Int := [1, 4, 6, 9, 11]

/-- `NoteIndex.is_accidental(index)`:
`ACCIDENTAL_NORMALIZED_INDICES.includes(normalize(index))`. -/
def NoteIndex.is_accidental (index : Int) : Bool :=
  ACCIDENTAL_NORMALIZED_INDICES.contains (NoteIndex.normalize index)

/-- A note object: `new Note(pitch_class, accidental, octave)`. -/
structure Note where
  pitch_class : _PitchClass
  accidental : _Accidental
  octave : Int
deriving DecidableEq

/-- `Note.prototype.C4_index`: `(octave - 4) * 12 + pitch_class.index_in_octave
+ accidental.shift`. -/
def Note.C4_index (n : Note) : Int :=
  (n.octave - 4) * 12 + n.pitch_class.index_in_octave + n.accidental.shift

/-- `Note.prototype.index`: `C4_index() - 9`. -/
def Note.index (n : Note) : Int := n.C4_index - 9

/-- `Note.prototype.equals`: `this.index() === other.index()`. -/
def Note.equals (n other : Note) : Bool := n.index == other.index

/-- `Note.prototype.natural`: a new note with the same pitch class and
octave and `Accidental.None`. -/
def Note.natural (n : Note) : Note := ⟨n.pitch_class, Accidental.None, n.octave⟩

/-- `Note.prototype.sharp`: a new note with the same pitch class and octave
and `Accidental.Sharp`. -/
def Note.sharp (n : Note) : Note := ⟨n.pitch_class, Accidental.Sharp, n.octave⟩

/-- `Note.prototype.flat`: a new note with the same pitch class and octave
and `Accidental.Flat`. -/
def Note.flat (n : Note) : Note := ⟨n.pitch_class, Accidental.Flat, n.octave⟩

/-- `Note.from_index(index)`: builds the note from
`NoteIndex.to_pitch_class`, sharp-or-none accidental, and
`NoteIndex.to_octave`.  All inputs considered here are integers, so the
source's `Math.round(index)` is the identity.  The `Option` propagates the
(impossible) `undefined` of the table lookup. -/
def Note.from_index (index : Int) : Option Note :=
  (NoteIndex.to_pitch_class index).map fun pc =>
    ⟨pc,
     if NoteIndex.is_accidental index then Accidental.Sharp else Accidental.None,
     NoteIndex.to_octave index⟩

/-- `Note.prototype.transpose(shift)`: `Note.from_index(index() + shift)`. -/
def Note.transpose (n : Note) (shift : Int) : Option Note :=
  Note.from_index (n.index + shift)

/-- `Note.prototype.midi_number`: `index() + 69`. -/
def Note.midi_number (n : Note) : Int := n.index + 69

/-- Fuel-driven helper for decimal digit characters (least significant
first); the fuel only makes the recursion structural, `natCharsRev` below
always supplies enough of it. -/
def natCharsRevAux : Nat → Nat → List Char
  | 0, _ => []
  | fuel + 1, n =>
    if n < 10 then [Nat.digitChar n]
    else Nat.digitChar (n % 10) :: natCharsRevAux fuel (n / 10)

/-- Decimal digit characters of `n`, least significant first; helper for
modelling JavaScript number-to-string conversion. -/
def natCharsRev (n : Nat) : List Char := natCharsRevAux (n + 1) n

/-- The fuel of `natCharsRevAux` is irrelevant as long as it exceeds the
number being converted. -/
theorem natCharsRevAux_congr :
    ∀ f1 f2 n, n < f1 → n < f2 → natCharsRevAux f1 n = natCharsRevAux f2 n := by
  intro f1
  induction f1 with
  | zero => intro f2 n h1; omega
  | succ f ih =>
    intro f2 n h1 h2
    match f2, h2 with
    | g + 1, h2 =>
      simp only [natCharsRevAux]
      split
      · rfl
      · have hn : ¬ n < 10 := by assumption
        have hlt : n / 10 < n := Nat.div_lt_self (by omega) (by omega)
        rw [ih g (n / 10) (by omega) (by omega)]

/-- Unfolding equation for `natCharsRev`, recovering the intended
recursion. -/
theorem natCharsRev_eq (n : Nat) :
    natCharsRev n =
      if n < 10 then [Nat.digitChar n]
      else Nat.digitChar (n % 10) :: natCharsRev (n / 10) := by
  show natCharsRevAux (n + 1) n = _
  simp only [natCharsRevAux]
  split
  · rfl
  · have hn : ¬ n < 10 := by assumption
    have hlt : n / 10 < n := Nat.div_lt_self (by omega) (by omega)
    rw [natCharsRevAux_congr n (n / 10 + 1) (n / 10) (by omega) (by omega)]
    rfl

/-- Decimal digit characters of `n`, most significant first. -/
def natChars (n : Nat) : List Char := (natCharsRev n).reverse

/-- JavaScript number-to-string conversion for an integer: decimal digits,
preceded by a minus sign when negative.  Models the implicit
`this._octave` → string coercion in `Note.prototype.to_string`. -/
def intChars (i : Int) : List Char :=
  if i < 0 then '-' :: natChars i.natAbs else natChars i.toNat

/-- `Note.prototype.to_string`: `pitch_class.letter + accidental.symbol +
octave`. -/
def Note.to_string (n : Note) : List Char :=
  n.pitch_class.letter :: n.accidental.symbol ++ intChars n.octave

/-- The digit value of a character under the given radix (10 or 16), as in
JavaScript's `parseInt`; `none` when the character is not a digit of that
radix. -/
def digitVal (radix : Nat) (c : Char) : Option Nat :=
  if c.isDigit then
    some (c.toNat - 48)
  else if radix = 16 ∧ 'a' ≤ c ∧ c ≤ 'f' then
    some (c.toNat - 97 + 10)
  else if radix = 16 ∧ 'A' ≤ c ∧ c ≤ 'F' then
    some (c.toNat - 65 + 10)
  else none

/-- The longest prefix of digit values of `s` under the given radix, as
consumed by JavaScript's `parseInt`. -/
def lexDigits (radix : Nat) : List Char → List Nat
  | [] => []
  | c :: r =>
    match digitVal radix c with
    | some d => d :: lexDigits radix r
    | none => []

/-- The numeric value of a digit sequence under the given radix. -/
def digitsToNat (radix : Nat) (l : List Nat) : Nat :=
  l.foldl (fun a d => a * radix + d) 0

/-- JavaScript's `parseInt(s)` with an unspecified radix, on ideal
integers: skip leading whitespace, read an optional sign, detect a `0x` /
`0X` hexadecimal prefix (radix 16, otherwise 10), then consume the longest
prefix of digits of that radix; `NaN` (here `none`) when no digit was
consumed. -/
def jsParseInt (s : List Char) : Option Int :=
  let s1 := s.dropWhile Char.isWhitespace
  let s2 := if s1.head? = some '-' ∨ s1.head? = some '+' then s1.tail else s1
  let radix : Nat :=
    if s2.head? = some '0' ∧ (s2.tail.head? = some 'x' ∨ s2.tail.head? = some 'X')
    then 16 else 10
  let s3 := if radix = 16 then s2.drop 2 else s2
  let ds := lexDigits radix s3
  if ds = [] then none
  else
    let v : Int := (digitsToNat radix ds : Int)
    some (if s1.head? = some '-' then -v else v)

/-- The getter access `PitchClass[letter]` guarded by
`PitchClass.hasOwnProperty(letter)` in `Note.from_string`: the single
character `letter` is an own property of the `PitchClass` object exactly
when it is one of the getters `A`-`G` (case-sensitive). -/
def PitchClass.of_letter (c : Char) : Option _PitchClass :=
  if c = 'A' then PitchClass.A
  else if c = 'B' then PitchClass.B
  else if c = 'C' then PitchClass.C
  else if c = 'D' then PitchClass.D
  else if c = 'E' then PitchClass.E
  else if c = 'F' then PitchClass.F
  else if c = 'G' then PitchClass.G
  else none

/-- `Note.from_string(string)`: parse `"<pitch class>[<accidental>][<octave>]"`.
Returns `none` (the source's `null`) when the string is empty, when the
first character is not an own property `A`-`G` of `PitchClass`, or when
`parseInt` of the octave part is `NaN`.  The comparison of `string[1]`
against `Accidental.Sharp.symbol` / `Accidental.Flat.symbol` is the
character comparison with `#` / `b`. -/
def Note.from_string (s : List Char) : Option Note :=
  match s with
  | [] => none
  | letter :: rest =>
    match PitchClass.of_letter letter with
    | none => none
    | some pitch_class =>
      match rest with
      | [] => some ⟨pitch_class, Accidental.None, 4⟩
      | c1 :: rest2 =>
        let accidental :=
          if c1 = '#' then Accidental.Sharp
          else if c1 = 'b' then Accidental.Flat
          else Accidental.None
        if rest2 = [] ∧ accidental ≠ Accidental.None then
          some ⟨pitch_class, accidental, 4⟩
        else
          match jsParseInt
              (if accidental ≠ Accidental.None then rest2 else c1 :: rest2) with
          | none => none
          | some octave => some ⟨pitch_class, accidental, octave⟩

/-! ## Arithmetic bridges: JavaScript `%` and `Math.floor` division -/

/-- Truncated remainder negates with its left argument. -/
theorem tmod_neg_left (a b : Int) : Int.tmod (-a) b = -Int.tmod a b := by
  rw [Int.tmod_def, Int.tmod_def, Int.neg_tdiv]
  ring

/-- The source's `normalize` (truncated `%` patched up for negatives) is the
mathematical non-negative remainder modulo 12. -/
theorem normalize_eq_emod (i : Int) : NoteIndex.normalize i = i % 12 := by
  simp only [NoteIndex.normalize]
  rcases le_or_lt 0 i with h | h
  · rw [Int.tmod_eq_emod h (by norm_num)]
    have h1 : 0 ≤ i % 12 := Int.emod_nonneg _ (by norm_num)
    rw [if_neg (by omega)]
  · have hn : Int.tmod i 12 = -Int.tmod (-i) 12 := by
      rw [tmod_neg_left, Int.neg_neg]
    rw [hn, Int.tmod_eq_emod (by omega) (by norm_num)]
    have h1 : 0 ≤ (-i) % 12 := Int.emod_nonneg _ (by norm_num)
    have h2 : (-i) % 12 < 12 := Int.emod_lt_of_pos _ (by norm_num)
    split <;> omega

/-- The source's `to_octave` (flooring division) in terms of Euclidean
division, which coincides with flooring for the positive divisor 12. -/
theorem to_octave_eq (i : Int) : NoteIndex.to_octave i = 4 + (i + 9) / 12 := by
  simp only [NoteIndex.to_octave]
  rw [Int.fdiv_eq_ediv _ (by norm_num)]

/-- C5: for every integer `index`, `NoteIndex.normalize index` equals the
mathematical non-negative modulo `((index % 12) + 12) % 12`, always lies in
`[0, 11]`, satisfies `normalize (-1) = 11`, and is 12-periodic. -/
theorem normalize_is_nonneg_mod (i : Int) :
    NoteIndex.normalize i = ((i % 12) + 12) % 12 ∧
    0 ≤ NoteIndex.normalize i ∧ NoteIndex.normalize i < 12 ∧
    NoteIndex.normalize (-1) = 11 ∧
    NoteIndex.normalize i = NoteIndex.normalize (i + 12) := by
  have h := normalize_eq_emod i
  have h2 := normalize_eq_emod (i + 12)
  have hb : 0 ≤ i % 12 := Int.emod_nonneg _ (by norm_num)
  have hb2 : i % 12 < 12 := Int.emod_lt_of_pos _ (by norm_num)
  refine ⟨by omega, by omega, by omega, by decide, by omega⟩

/-- C6: for every integer `index`, `NoteIndex.to_octave index` equals
`4 + ⌊(index + 9) / 12⌋` (Euclidean = flooring division by the positive
12), and in particular the octave boundary falls at C:
`to_octave 2 = 4` and `to_octave 3 = 5`. -/
theorem to_octave_boundary_at_C (i : Int) :
    NoteIndex.to_octave i = 4 + (i + 9) / 12 ∧
    NoteIndex.to_octave 2 = 4 ∧ NoteIndex.to_octave 3 = 5 :=
  ⟨to_octave_eq i, by decide, by decide⟩

/-- C4: `PitchClass.with_index i` returns the pitch class with index `i`
for `i ∈ [0, 6]` and the empty result (`undefined`) outside that range. -/
theorem with_index_range (i : Int) :
    (0 ≤ i → i ≤ 6 → ∃ pc, PitchClass.with_index i = some pc ∧ pc.index = i) ∧
    ((i < 0 ∨ 6 < i) → PitchClass.with_index i = none) := by
  constructor
  · intro h1 h2
    interval_cases i <;> exact ⟨_, rfl, rfl⟩
  · intro h
    unfold PitchClass.with_index
    rcases h with h | h
    · rw [if_neg (by omega)]
    · rw [if_pos (by omega)]
      apply List.get?_eq_none.mpr
      have : _PitchClass.list.length = 7 := by decide
      omega

/-- Witness for C4 at the concrete inputs 3 (in range) and 9 (out of
range). -/
theorem with_index_range_witness :
    (∃ pc, PitchClass.with_index 3 = some pc ∧ pc.index = 3) ∧
    PitchClass.with_index 9 = none :=
  ⟨(with_index_range 3).1 (by norm_num) (by norm_num),
   (with_index_range 9).2 (by norm_num)⟩

/-! ## The `from_index` construction -/

/-- `to_pitch_class` always succeeds, returns one of the seven pitch
classes, and its result's index-in-octave relates to the normalized index
as the table prescribes: accidental slots map to the natural note
immediately below them. -/
theorem to_pitch_class_spec (i : Int) :
    ∃ pc, NoteIndex.to_pitch_class i = some pc ∧ pc ∈ _PitchClass.list ∧
      pc.index_in_octave + (if NoteIndex.is_accidental i then (1:Int) else 0) =
        (NoteIndex.normalize i + 9) % 12 ∧
      (pc.index_in_octave + 3) % 12 =
        NoteIndex.normalize i - (if NoteIndex.is_accidental i then (1:Int) else 0) ∧
      (NoteIndex.normalize i = 1 → some pc = PitchClass.A) := by
  have hn := normalize_eq_emod i
  have h0 : 0 ≤ i % 12 := Int.emod_nonneg _ (by norm_num)
  have h1 : i % 12 < 12 := Int.emod_lt_of_pos _ (by norm_num)
  have hcase : i % 12 = 0 ∨ i % 12 = 1 ∨ i % 12 = 2 ∨ i % 12 = 3 ∨ i % 12 = 4 ∨
      i % 12 = 5 ∨ i % 12 = 6 ∨ i % 12 = 7 ∨ i % 12 = 8 ∨ i % 12 = 9 ∨
      i % 12 = 10 ∨ i % 12 = 11 := by omega
  simp only [NoteIndex.to_pitch_class, NoteIndex.is_accidental, hn]
  rcases hcase with h|h|h|h|h|h|h|h|h|h|h|h <;> rw [h] <;>
    exact ⟨_, rfl, by decide, by decide, by decide, by decide⟩

/-- `from_index` always succeeds; reading the index of the resulting note
recovers the input, the accidental is sharp-or-none, and the pitch class
is the one prescribed by the table. -/
theorem from_index_spec (i : Int) :
    ∃ n, Note.from_index i = some n ∧ n.index = i ∧
      n.accidental =
        (if NoteIndex.is_accidental i then Accidental.Sharp else Accidental.None) ∧
      (n.pitch_class.index_in_octave + 3) % 12 =
        NoteIndex.normalize i - (if NoteIndex.is_accidental i then (1:Int) else 0) ∧
      (NoteIndex.normalize i = 1 → some n.pitch_class = PitchClass.A) := by
  obtain ⟨pc, hpc, hmem, hsum, hio, hA⟩ := to_pitch_class_spec i
  refine ⟨⟨pc,
      if NoteIndex.is_accidental i then Accidental.Sharp else Accidental.None,
      NoteIndex.to_octave i⟩, ?_, ?_, rfl, hio, hA⟩
  · unfold Note.from_index
    rw [hpc]
    rfl
  · show (NoteIndex.to_octave i - 4) * 12 + pc.index_in_octave +
      (if NoteIndex.is_accidental i then Accidental.Sharp else Accidental.None).shift
      - 9 = i
    rw [to_octave_eq]
    rw [normalize_eq_emod] at hsum
    cases hb : NoteIndex.is_accidental i
    · rw [hb] at hsum
      rw [if_neg (by decide)] at hsum
      rw [if_neg (by decide)]
      show (4 + (i + 9) / 12 - 4) * 12 + pc.index_in_octave + 0 - 9 = i
      omega
    · rw [hb] at hsum
      rw [if_pos (by decide)] at hsum
      rw [if_pos (by decide)]
      show (4 + (i + 9) / 12 - 4) * 12 + pc.index_in_octave + 1 - 9 = i
      omega

/-- C1: for every integer `i`, `Note.from_index i` succeeds and
`(Note.from_index i).index() = i`: reconstructing a note from a half-step
index and recomputing its index is the identity on integers. -/
theorem from_index_index_roundtrip (i : Int) :
    (Note.from_index i).map Note.index = some i := by
  obtain ⟨n, hfi, hidx, -, -, -⟩ := from_index_spec i
  rw [hfi]
  simp [hidx]

/-- The normalized indices the source marks as accidental are exactly
1, 4, 6, 9, 11. -/
theorem is_accidental_iff (i : Int) :
    NoteIndex.is_accidental i = true ↔
      (NoteIndex.normalize i = 1 ∨ NoteIndex.normalize i = 4 ∨
       NoteIndex.normalize i = 6 ∨ NoteIndex.normalize i = 9 ∨
       NoteIndex.normalize i = 11) := by
  have hn := normalize_eq_emod i
  have h0 : 0 ≤ i % 12 := Int.emod_nonneg _ (by norm_num)
  have h1 : i % 12 < 12 := Int.emod_lt_of_pos _ (by norm_num)
  have hcase : i % 12 = 0 ∨ i % 12 = 1 ∨ i % 12 = 2 ∨ i % 12 = 3 ∨ i % 12 = 4 ∨
      i % 12 = 5 ∨ i % 12 = 6 ∨ i % 12 = 7 ∨ i % 12 = 8 ∨ i % 12 = 9 ∨
      i % 12 = 10 ∨ i % 12 = 11 := by omega
  simp only [NoteIndex.is_accidental, hn]
  rcases hcase with h|h|h|h|h|h|h|h|h|h|h|h <;> rw [h] <;> decide

/-- C2: `Note.from_index` assigns accidental Sharp exactly when the
normalized index is in {1, 4, 6, 9, 11} and None otherwise (never Flat),
and assigns the pitch class of the natural note immediately below the
slot (its index-in-octave, read on the A-based circle via `+ 3 mod 12`,
is the normalized index minus the sharp shift); in particular normalized
index 1 yields pitch class A. -/
theorem from_index_accidental_spec (i : Int) :
    ∃ n, Note.from_index i = some n ∧
      (n.accidental = Accidental.Sharp ∨ n.accidental = Accidental.None) ∧
      (n.accidental = Accidental.Sharp ↔
        (NoteIndex.normalize i = 1 ∨ NoteIndex.normalize i = 4 ∨
         NoteIndex.normalize i = 6 ∨ NoteIndex.normalize i = 9 ∨
         NoteIndex.normalize i = 11)) ∧
      n.accidental ≠ Accidental.Flat ∧
      (n.pitch_class.index_in_octave + 3) % 12 =
        NoteIndex.normalize i -
          (if n.accidental = Accidental.Sharp then (1:Int) else 0) ∧
      (NoteIndex.normalize i = 1 → some n.pitch_class = PitchClass.A) := by
  obtain ⟨n, hfi, -, hacc, hio, hA⟩ := from_index_spec i
  refine ⟨n, hfi, ?_, ?_, ?_, ?_, hA⟩
  · rw [hacc]
    cases hb : NoteIndex.is_accidental i <;> decide
  · rw [hacc]
    cases hb : NoteIndex.is_accidental i
    · constructor
      · intro hcontra
        exact absurd hcontra (by decide)
      · intro hmem
        have h2 : NoteIndex.is_accidental i = true := (is_accidental_iff i).mpr hmem
        rw [hb] at h2
        cases h2
    · constructor
      · intro _
        exact (is_accidental_iff i).mp hb
      · intro _
        decide
  · rw [hacc]
    cases hb : NoteIndex.is_accidental i <;> decide
  · rw [hacc]
    cases hb : NoteIndex.is_accidental i
    · rw [hb] at hio
      rw [if_neg (by decide)] at hio
      rw [if_neg (by decide)]
      exact hio
    · rw [hb] at hio
      rw [if_pos (by decide)] at hio
      rw [if_pos (by decide)]
      exact hio

/-- C7: transposition composes additively up to enharmonic equality:
`n.transpose(a).transpose(b)` equals `n.transpose(a + b)`. -/
theorem transpose_composes (n : Note) (a b : Int) :
    ∃ m k j, n.transpose a = some m ∧ m.transpose b = some k ∧
      n.transpose (a + b) = some j ∧ k.equals j = true := by
  obtain ⟨m, hm, hmi, -, -, -⟩ := from_index_spec (n.index + a)
  obtain ⟨k, hk, hki, -, -, -⟩ := from_index_spec (m.index + b)
  obtain ⟨j, hj, hji, -, -, -⟩ := from_index_spec (n.index + (a + b))
  refine ⟨m, k, j, hm, hk, hj, ?_⟩
  unfold Note.equals
  have : k.index = j.index := by omega
  simp [this]

/-! ## Accidental variants and equality -/

/-- C8: `sharp()`, `flat()` and `natural()` keep the pitch class and the
octave unchanged and only replace the accidental field (by Sharp, Flat and
None respectively); in particular `A4.sharp().to_string()` is `"A#4"`,
not the enharmonic respelling `"Bb4"`. -/
theorem variants_replace_accidental_only (n : Note) :
    n.sharp.pitch_class = n.pitch_class ∧ n.sharp.octave = n.octave ∧
    n.sharp.accidental = Accidental.Sharp ∧
    n.flat.pitch_class = n.pitch_class ∧ n.flat.octave = n.octave ∧
    n.flat.accidental = Accidental.Flat ∧
    n.natural.pitch_class = n.pitch_class ∧ n.natural.octave = n.octave ∧
    n.natural.accidental = Accidental.None ∧
    (Note.sharp ⟨⟨0, 9, 'A'⟩, Accidental.None, 4⟩).to_string = ['A', '#', '4'] ∧
    (Note.sharp ⟨⟨0, 9, 'A'⟩, Accidental.None, 4⟩).to_string ≠ ['B', 'b', '4'] :=
  ⟨rfl, rfl, rfl, rfl, rfl, rfl, rfl, rfl, rfl, by decide, by decide⟩

/-- C9: `equals` is enharmonic index equality, not structural equality:
`n.equals m` holds iff `n.index() = m.index()`, and the distinct spellings
`A#4` and `Bb4` parsed by `from_string` are `equals`-equal while their
`to_string` outputs differ. -/
theorem equals_is_enharmonic (n m : Note) :
    (n.equals m = true ↔ n.index = m.index) ∧
    (∃ x y, Note.from_string ['A', '#', '4'] = some x ∧
      Note.from_string ['B', 'b', '4'] = some y ∧
      x.equals y = true ∧
      x.to_string = ['A', '#', '4'] ∧ y.to_string = ['B', 'b', '4'] ∧
      x.to_string ≠ y.to_string) := by
  constructor
  · unfold Note.equals
    exact beq_iff_eq
  · exact ⟨⟨⟨0, 9, 'A'⟩, Accidental.Sharp, 4⟩, ⟨⟨1, 11, 'B'⟩, Accidental.Flat, 4⟩,
      by decide, by decide, by decide, by decide, by decide, by decide⟩

/-! ## Decimal digit strings and `parseInt` -/

/-- The ten decimal digit characters. -/
def decimalDigits : List Char :=
  ['0', '1', '2', '3', '4', '5', '6', '7', '8', '9']

/-- The digit characters of values below ten are decimal digits. -/
theorem digitChar_mem_decimalDigits :
    ∀ d, d < 10 → Nat.digitChar d ∈ decimalDigits := by decide

/-- Every character produced by `natCharsRev` is a decimal digit. -/
theorem natCharsRev_mem (n : Nat) :
    ∀ c ∈ natCharsRev n, c ∈ decimalDigits := by
  induction n using Nat.strong_induction_on with
  | _ n ih =>
    rw [natCharsRev_eq]
    split
    · intro c hc
      rw [List.mem_singleton] at hc
      subst hc
      exact digitChar_mem_decimalDigits n (by omega)
    · intro c hc
      rw [List.mem_cons] at hc
      rcases hc with hc | hc
      · subst hc
        exact digitChar_mem_decimalDigits _ (Nat.mod_lt _ (by omega))
      · exact ih (n / 10) (Nat.div_lt_self (by omega) (by omega)) c hc

/-- `natCharsRev` never returns the empty list. -/
theorem natCharsRev_ne_nil (n : Nat) : natCharsRev n ≠ [] := by
  rw [natCharsRev_eq]
  split <;> simp

/-- The decimal value of a digit-character list, most significant last
(i.e. matching the least-significant-first order of `natCharsRev`). -/
def digitsVal (l : List Char) : Nat :=
  l.foldr (fun c a => a * 10 + (c.toNat - 48)) 0

/-- `digitsVal` recovers the number `natCharsRev` was applied to. -/
theorem digitsVal_natCharsRev (n : Nat) : digitsVal (natCharsRev n) = n := by
  induction n using Nat.strong_induction_on with
  | _ n ih =>
    rw [natCharsRev_eq]
    split
    · have : ∀ d, d < 10 → digitsVal [Nat.digitChar d] = d := by decide
      exact this n (by omega)
    · have hd : ∀ d, d < 10 → (Nat.digitChar d).toNat - 48 = d := by decide
      show digitsVal (natCharsRev (n / 10)) * 10 + ((n % 10).digitChar.toNat - 48) = n
      rw [ih (n / 10) (Nat.div_lt_self (by omega) (by omega)),
        hd (n % 10) (Nat.mod_lt _ (by omega))]
      omega

/-- `digitVal` at radix 10 succeeds exactly on decimal digits, returning
their value. -/
theorem digitVal_decimal :
    ∀ c ∈ decimalDigits, digitVal 10 c = some (c.toNat - 48) := by decide

/-- `lexDigits` at radix 10 consumes an all-decimal-digit list whole. -/
theorem lexDigits_all_digits (l : List Char) (hd : ∀ c ∈ l, c ∈ decimalDigits) :
    lexDigits 10 l = l.map fun c => c.toNat - 48 := by
  induction l with
  | nil => rfl
  | cons c r ih =>
    show (match digitVal 10 c with
      | some d => d :: lexDigits 10 r
      | none => []) = _
    rw [digitVal_decimal c (hd c (List.mem_cons_self c r))]
    rw [ih fun x hx => hd x (List.mem_cons_of_mem c hx)]
    rfl

/-- Folding up the mapped digit values of `natChars n` recovers `n`. -/
theorem digitsToNat_natChars (n : Nat) :
    digitsToNat 10 ((natChars n).map fun c => c.toNat - 48) = n := by
  show digitsToNat 10 (((natCharsRev n).reverse).map fun c => c.toNat - 48) = n
  rw [List.map_reverse]
  unfold digitsToNat
  rw [List.foldl_reverse]
  rw [List.foldr_map]
  exact digitsVal_natCharsRev n

/-- Character-class facts about the decimal digits used to steer
`jsParseInt` and `from_string` through their branches. -/
theorem decimalDigits_facts :
    ∀ x ∈ decimalDigits, Char.isWhitespace x = false ∧ x ≠ '-' ∧ x ≠ '+' ∧
      x ≠ 'x' ∧ x ≠ 'X' ∧ x ≠ '#' ∧ x ≠ 'b' := by decide

/-- `jsParseInt` on a non-empty all-decimal-digit string, with and without
a leading minus sign. -/
theorem jsParseInt_all_digits (l : List Char) (hne : l ≠ [])
    (hd : ∀ c ∈ l, c ∈ decimalDigits) :
    jsParseInt l = some ((digitsToNat 10 (l.map fun c => c.toNat - 48) : Int)) ∧
    jsParseInt ('-' :: l) =
      some (-(digitsToNat 10 (l.map fun c => c.toNat - 48) : Int)) := by
  obtain ⟨c, cs, rfl⟩ : ∃ c cs, l = c :: cs := by
    cases l with
    | nil => exact absurd rfl hne
    | cons c cs => exact ⟨c, cs, rfl⟩
  have hc : c ∈ decimalDigits := hd c (List.mem_cons_self c cs)
  obtain ⟨hw, hminus, hplus, -, -, -, -⟩ := decimalDigits_facts c hc
  have hdrop : (c :: cs).dropWhile Char.isWhitespace = c :: cs := by
    rw [List.dropWhile_cons, hw]
    rw [if_neg (by decide)]
  have h2 : ¬((c :: cs).head? = some '-' ∨ (c :: cs).head? = some '+') := by
    intro h
    rcases h with h | h <;>
      simp only [List.head?_cons, Option.some.injEq] at h
    · exact hminus h
    · exact hplus h
  have h3 : ¬((c :: cs).head? = some '0' ∧
      ((c :: cs).tail.head? = some 'x' ∨ (c :: cs).tail.head? = some 'X')) := by
    rintro ⟨-, h⟩
    cases cs with
    | nil => rcases h with h | h <;> simp at h
    | cons c2 cs2 =>
      have hc2 : c2 ∈ decimalDigits := hd c2 (by simp)
      obtain ⟨-, -, -, hx2, hX2, -, -⟩ := decimalDigits_facts c2 hc2
      rcases h with h | h <;>
        simp only [List.tail_cons, List.head?_cons, Option.some.injEq] at h
      · exact hx2 h
      · exact hX2 h
  have h4 : ¬((c :: cs).head? = some '-') := fun h => h2 (Or.inl h)
  have hlex : lexDigits 10 (c :: cs) = (c :: cs).map fun x => x.toNat - 48 :=
    lexDigits_all_digits _ hd
  constructor
  · show (let s1 := List.dropWhile Char.isWhitespace (c :: cs);
      let s2 := if s1.head? = some '-' ∨ s1.head? = some '+' then s1.tail else s1;
      let radix :=
        if s2.head? = some '0' ∧ (s2.tail.head? = some 'x' ∨ s2.tail.head? = some 'X')
        then 16 else 10;
      let s3 := if radix = 16 then List.drop 2 s2 else s2;
      let ds := lexDigits radix s3;
      if ds = [] then none
      else
        let v : Int := (digitsToNat radix ds : Int)
        some (if s1.head? = some '-' then -v else v)) = _
    simp only [hdrop]
    rw [if_neg h2, if_neg h3, if_neg (by decide : ¬((10:Nat) = 16))]
    rw [hlex]
    rw [if_neg (by simp)]
    rw [if_neg h4]
  · have hdrop2 : List.dropWhile Char.isWhitespace ('-' :: c :: cs) = '-' :: c :: cs := by
      rw [List.dropWhile_cons]
      rw [if_neg (by decide)]
    show (let s1 := List.dropWhile Char.isWhitespace ('-' :: c :: cs);
      let s2 := if s1.head? = some '-' ∨ s1.head? = some '+' then s1.tail else s1;
      let radix :=
        if s2.head? = some '0' ∧ (s2.tail.head? = some 'x' ∨ s2.tail.head? = some 'X')
        then 16 else 10;
      let s3 := if radix = 16 then List.drop 2 s2 else s2;
      let ds := lexDigits radix s3;
      if ds = [] then none
      else
        let v : Int := (digitsToNat radix ds : Int)
        some (if s1.head? = some '-' then -v else v)) = _
    simp only [hdrop2]
    have h5 : ('-' :: c :: cs).head? = some '-' ∨ ('-' :: c :: cs).head? = some '+' :=
      Or.inl rfl
    have h6 : ('-' :: c :: cs).head? = some '-' := rfl
    rw [if_pos h5]
    rw [List.tail_cons]
    rw [if_neg h3, if_neg (by decide : ¬((10:Nat) = 16))]
    rw [hlex]
    rw [if_neg (by simp)]
    rw [if_pos h6]

/-- `natChars` never returns the empty list and produces only decimal
digits. -/
theorem natChars_spec (n : Nat) :
    natChars n ≠ [] ∧ ∀ c ∈ natChars n, c ∈ decimalDigits := by
  constructor
  · show (natCharsRev n).reverse ≠ []
    simp only [ne_eq, List.reverse_eq_nil_iff]
    exact natCharsRev_ne_nil n
  · intro c hc
    exact natCharsRev_mem n c (List.mem_reverse.mp hc)

/-- `parseInt` inverts the number-to-string conversion on every integer. -/
theorem jsParseInt_intChars (i : Int) : jsParseInt (intChars i) = some i := by
  unfold intChars
  split_ifs with h
  · obtain ⟨hne, hd⟩ := natChars_spec i.natAbs
    rw [(jsParseInt_all_digits (natChars i.natAbs) hne hd).2, digitsToNat_natChars]
    congr 1
    omega
  · obtain ⟨hne, hd⟩ := natChars_spec i.toNat
    rw [(jsParseInt_all_digits (natChars i.toNat) hne hd).1, digitsToNat_natChars]
    congr 1
    omega

/-! ## The string round trip -/

/-- `PitchClass[letter]` recovers every pitch class of the list from its
own letter. -/
theorem of_letter_valid :
    ∀ pc ∈ _PitchClass.list, PitchClass.of_letter pc.letter = some pc := by decide

/-- The string of an integer is non-empty and starts with a character that
is neither `#` nor `b`. -/
theorem intChars_spec (i : Int) :
    ∃ c cs, intChars i = c :: cs ∧ c ≠ '#' ∧ c ≠ 'b' := by
  unfold intChars
  split_ifs with h
  · exact ⟨'-', natChars i.natAbs, rfl, by decide, by decide⟩
  · obtain ⟨hne, hd⟩ := natChars_spec i.toNat
    obtain ⟨c, cs, hcc⟩ : ∃ c cs, natChars i.toNat = c :: cs := by
      cases hl : natChars i.toNat with
      | nil => exact absurd hl hne
      | cons c cs => exact ⟨c, cs, rfl⟩
    have hc : c ∈ decimalDigits := by
      apply hd
      rw [hcc]
      exact List.mem_cons_self c cs
    obtain ⟨-, -, -, -, -, hsharp, hflat⟩ := decimalDigits_facts c hc
    exact ⟨c, cs, hcc, hsharp, hflat⟩

/-- C10: for every note built from a valid pitch class, one of the three
accidentals, and any integer octave, `from_string` parses `to_string` back
to a note with exactly the same pitch class, accidental and octave: the
string round trip preserves spelling exactly. -/
theorem from_string_to_string_roundtrip (pc : _PitchClass) (acc : _Accidental)
    (oct : Int) (hpc : pc ∈ _PitchClass.list)
    (hacc : acc = Accidental.None ∨ acc = Accidental.Sharp ∨ acc = Accidental.Flat) :
    Note.from_string (Note.to_string ⟨pc, acc, oct⟩) = some ⟨pc, acc, oct⟩ := by
  have hletter : PitchClass.of_letter pc.letter = some pc := of_letter_valid pc hpc
  obtain ⟨c, cs, hic, hsharp, hflat⟩ := intChars_spec oct
  have hne : intChars oct ≠ [] := by rw [hic]; simp
  rcases hacc with h | h | h <;> subst h
  · show Note.from_string (pc.letter :: ([] ++ intChars oct)) = _
    rw [List.nil_append, hic]
    simp only [Note.from_string]
    rw [hletter]
    rw [if_neg hsharp, if_neg hflat]
    simp only []
    rw [if_neg (by simp : ¬(cs = [] ∧ Accidental.None ≠ Accidental.None))]
    rw [if_neg (by simp : ¬(Accidental.None ≠ Accidental.None))]
    rw [← hic, jsParseInt_intChars oct]
  · show Note.from_string (pc.letter :: '#' :: intChars oct) = _
    simp only [Note.from_string]
    rw [hletter]
    simp only [reduceIte]
    rw [if_neg (by simp [hne] : ¬(intChars oct = [] ∧ Accidental.Sharp ≠ Accidental.None))]
    rw [if_pos (by decide : Accidental.Sharp ≠ Accidental.None)]
    rw [jsParseInt_intChars oct]
  · show Note.from_string (pc.letter :: 'b' :: intChars oct) = _
    simp only [Note.from_string]
    rw [hletter]
    simp only [reduceIte]
    rw [if_neg (by decide : ¬(('b':Char) = '#'))]
    rw [if_neg (by simp [hne] : ¬(intChars oct = [] ∧ Accidental.Flat ≠ Accidental.None))]
    rw [if_pos (by decide : Accidental.Flat ≠ Accidental.None)]
    rw [jsParseInt_intChars oct]

/-- Witness for C10 at the concrete note Bb(-12): parsing its string
representation recovers it exactly. -/
theorem from_string_to_string_roundtrip_witness :
    Note.from_string (Note.to_string ⟨⟨1, 11, 'B'⟩, Accidental.Flat, -12⟩) =
      some ⟨⟨1, 11, 'B'⟩, Accidental.Flat, -12⟩ :=
  from_string_to_string_roundtrip ⟨1, 11, 'B'⟩ Accidental.Flat (-12)
    (by decide) (by decide)

/-! ## Parsing failures (claim C3) -/

/-- Modelled from the spec: a `<signed integer octave>` in the grammar
`<Letter>[<accidental symbol>][<signed integer octave>]` — an optional
sign followed by one or more decimal digits and nothing else. -/
def spec_signed_int (s : List Char) : Bool :=
  match s with
  | '-' :: r => !r.isEmpty && r.all Char.isDigit
  | '+' :: r => !r.isEmpty && r.all Char.isDigit
  | r => !r.isEmpty && r.all Char.isDigit

/-- Modelled from the spec: the grammar
`<Letter>[<accidental symbol>][<signed integer octave>]` that claim C3
says characterizes the strings `from_string` accepts, with `<Letter>` one
of the uppercase letters `A`-`G` and the accidental symbol `#` or `b`. -/
def matches_spec_grammar (s : List Char) : Bool :=
  match s with
  | [] => false
  | c :: rest =>
    ['A', 'B', 'C', 'D', 'E', 'F', 'G'].contains c &&
    (let rest2 :=
      match rest with
      | '#' :: r => r
      | 'b' :: r => r
      | _ => rest
     rest2.isEmpty || spec_signed_int rest2)

/-- Counterexample to C3 as stated: the string `"A4x"` does not match the
grammar (its octave part `4x` is not a signed integer), yet `from_string`
does not return the empty result — `parseInt("4x")` prefix-parses to 4,
so the call returns the note A4. -/
theorem from_string_grammar_counterexample :
    matches_spec_grammar ['A', '4', 'x'] = false ∧
    Note.from_string ['A', '4', 'x'] =
      some ⟨⟨0, 9, 'A'⟩, Accidental.None, 4⟩ := by
  constructor
  · decide
  · decide

/-- The exact acceptance condition of `from_string`: a valid first letter,
then either nothing, a lone accidental symbol, or an octave part on which
`parseInt` succeeds (i.e. one with a parsable numeric prefix). -/
def from_string_accepts (s : List Char) : Bool :=
  match s with
  | [] => false
  | letter :: rest =>
    (PitchClass.of_letter letter).isSome &&
    (match rest with
     | [] => true
     | c1 :: rest2 =>
       ((c1 = '#' || c1 = 'b') && rest2.isEmpty) ||
       (jsParseInt (if c1 = '#' || c1 = 'b' then rest2 else c1 :: rest2)).isSome)

/-- C3 (amended): `from_string` returns the empty result exactly when the
string is empty, its first character is not one of the case-sensitive
letters `A`-`G`, or `parseInt` of its octave part yields `NaN` (no
parsable numeric prefix); it never throws (the embedding is total).  In
particular a malformed octave with a numeric prefix, such as in `"A4x"`,
is accepted rather than rejected, so failing the spec's grammar alone does
not imply a null result. -/
theorem from_string_none_iff (s : List Char) :
    Note.from_string s = none ↔ from_string_accepts s = false := by
  cases s with
  | nil => simp [Note.from_string, from_string_accepts]
  | cons letter rest =>
    simp only [Note.from_string, from_string_accepts]
    cases hl : PitchClass.of_letter letter with
    | none => simp
    | some pc =>
      simp only [Option.isSome_some, Bool.true_and]
      cases rest with
      | nil => simp
      | cons c1 rest2 =>
        simp only []
        by_cases h1 : c1 = '#'
        · subst h1
          simp only [reduceIte, Bool.true_or, Bool.true_and]
          cases rest2 with
          | nil =>
            rw [if_pos ⟨rfl, by decide⟩]
            simp
          | cons d ds =>
            rw [if_neg (by simp : ¬(d :: ds = [] ∧ Accidental.Sharp ≠ Accidental.None))]
            rw [if_pos (by decide : Accidental.Sharp ≠ Accidental.None)]
            cases hp : jsParseInt (d :: ds) <;> simp [hp]
        · by_cases h2 : c1 = 'b'
          · subst h2
            simp only [reduceIte]
            rw [if_neg (by decide : ¬(('b':Char) = '#'))]
            cases rest2 with
            | nil =>
              rw [if_pos ⟨rfl, by decide⟩]
              simp
            | cons d ds =>
              rw [if_neg (by simp : ¬(d :: ds = [] ∧ Accidental.Flat ≠ Accidental.None))]
              rw [if_pos (by decide : Accidental.Flat ≠ Accidental.None)]
              cases hp : jsParseInt (d :: ds) <;> simp [hp]
          · simp only [if_neg h1, if_neg h2]
            have hor : (c1 = '#' || c1 = 'b') = false := by
              simp [h1, h2]
            simp only [hor, Bool.false_and, Bool.false_or]
            rw [if_neg (by simp : ¬(rest2 = [] ∧ Accidental.None ≠ Accidental.None))]
            rw [if_neg (by simp : ¬(Accidental.None ≠ Accidental.None))]
            rw [if_neg (by simp : ¬((false : Bool) = true))]
            cases hp : jsParseInt (c1 :: rest2) <;> simp
